import Mathlib

/-!
# Verification of canwarp (cylindrical-to-spherical image reprojection)

Shallow embedding of `canwarp.py`. The program converts an image captured by
a cylindrical pinhole camera into a spherical projection. Floating-point
arithmetic is idealized as exact real arithmetic (`ℝ`); the spec itself
states the algebraic laws "exactly over real/rational arithmetic".

The source is Python 2 code (the explicit `float(x)` and `float(t)` casts
guard against integer floor division, which only matters under Python 2
semantics), so `img_in.shape[1] / 2` on integers is floor division: the
centers are natural-number division `W / 2`, `H / 2`.

Fallible operations return `Option`:
  * `cyl2sph` divides by `d` and by `cos theta`; Python raises
    `ZeroDivisionError` when the divisor is zero, modelled as `none`.
  * `sph2cyl` evaluates `tan phi`, which is undefined over the reals at
    `phi = ±π/2`; modelled as `none`, and a `none` source coordinate leaves
    the model's output pixel black. The float program never evaluates `tan`
    at the exact pole: its angle is a float neighbor `a` of `±π/2`. There
    `tan a` is huge, so a cell whose `theta` is away from the pole gets a
    far out-of-bounds source (black), but when `theta` is the same
    near-pole value the cancellation `tan a * cos a = sin a ≈ ∓1` gives an
    in-bounds source instead. The `none` branch therefore marks exact-real
    undefinedness; at such cells the model makes no fidelity claim about
    the float result (see the corner theorem below for the float-side
    evaluation).
  * `img_cyl2sph` computes `d = W / coverage / π`; Python raises
    `ZeroDivisionError` when `coverage = 0`, modelled as `none`.
-/

open Real

/-- A pixel: three 8-bit channels (blue, green, red), modelled as naturals. -/
abbrev Pixel : Type := ℕ × ℕ × ℕ

/-- The all-zero pixel, the initial value of every cell of `np.zeros`. -/
def blackPixel : Pixel := (0, 0, 0)

/-- An image: height, width, and a pixel at each (row, column). -/
structure Img where
  H : ℕ
  W : ℕ
  data : ℕ → ℕ → Pixel

/-- Bounds-checked pixel read `img_in[y, x]` (row `y`, column `x`):
`none` models an out-of-bounds numpy access. -/
def Img.read (img : Img) (y x : ℕ) : Option Pixel :=
  if y < img.H ∧ x < img.W then some (img.data y x) else none

/-- Python `int()` applied to a real: truncation toward zero. -/
noncomputable def truncZ (r : ℝ) : ℤ := if 0 ≤ r then ⌊r⌋ else ⌈r⌉

/-- `cyl2sph(x, y, d)` from the source:
`theta = float(x) / d; phi = math.atan(y / math.cos(theta) / d)`.
`none` when a division by zero would be raised (`d = 0` or
`cos theta = 0`). -/
noncomputable def cyl2sph (x y d : ℝ) : Option (ℝ × ℝ) :=
  if d = 0 then none
  else if Real.cos (x / d) = 0 then none
  else some (x / d, Real.arctan (y / Real.cos (x / d) / d))

/-- `sph2cyl(theta, phi, d)` from the source:
`(d * theta, d * math.tan(phi) * math.cos(theta))`.
`none` when real `tan phi` is undefined (`cos phi = 0`, i.e.
`phi = ±π/2` exactly — a value the float program never passes in; its
near-pole float argument yields a huge `tan`, which the product with a
non-tiny `cos theta` keeps huge, but which cancels to `sin phi ≈ ∓1`
when `theta` sits at the same near-pole value). -/
noncomputable def sph2cyl (theta phi d : ℝ) : Option (ℝ × ℝ) :=
  if Real.cos phi = 0 then none
  else some (d * theta, d * Real.tan phi * Real.cos theta)

/-- `theta_max = math.pi / 2` from the source. -/
noncomputable def theta_max : ℝ := Real.pi / 2

/-- `theta_min = -theta_max` from the source. -/
noncomputable def theta_min : ℝ := -theta_max

/-- `phi_max = math.pi / 2` from the source. -/
noncomputable def phi_max : ℝ := Real.pi / 2

/-- `phi_min = -phi_max` from the source. -/
noncomputable def phi_min : ℝ := -phi_max

/-- `theta = float(t) / t_max * (theta_max - theta_min) + theta_min`
from the loop body, with `t_max = W`. -/
noncomputable def thetaAt (W t : ℕ) : ℝ :=
  (t : ℝ) / (W : ℝ) * (theta_max - theta_min) + theta_min

/-- `phi = float(p) / p_max * (phi_max - phi_min) + phi_min`
from the loop body, with `p_max = W`. -/
noncomputable def phiAt (W p : ℕ) : ℝ :=
  (p : ℝ) / (W : ℝ) * (phi_max - phi_min) + phi_min

/-- `x_center = img_in.shape[1] / 2`: Python 2 integer floor division. -/
def x_center (W : ℕ) : ℕ := W / 2

/-- `y_center = img_in.shape[0] / 2`: Python 2 integer floor division. -/
def y_center (H : ℕ) : ℕ := H / 2

/-- `d = img_in.shape[1] / coverage / math.pi`. -/
noncomputable def diam (W : ℕ) (coverage : ℝ) : ℝ :=
  (W : ℝ) / coverage / Real.pi

/-- The integer source coordinate `(x, y)` computed for output cell
(column `t`, row `p`): `cyl = sph2cyl(theta, phi, d);
x = int(cyl[0] + x_center); y = int(cyl[1] + y_center)`. -/
noncomputable def srcCoord (W H : ℕ) (coverage : ℝ) (t p : ℕ) : Option (ℤ × ℤ) :=
  match sph2cyl (thetaAt W t) (phiAt W p) (diam W coverage) with
  | none => none
  | some c => some (truncZ (c.1 + (x_center W : ℝ)), truncZ (c.2 + (y_center H : ℝ)))

/-- The pixel the loop body leaves at output cell `img_out[p, t]`:
the input pixel at `img_in[y, x]` when
`x in range(img_in.shape[1]) and y in range(img_in.shape[0])`,
otherwise the initial zero (black) value. -/
noncomputable def outPixel (img : Img) (coverage : ℝ) (p t : ℕ) : Pixel :=
  match srcCoord img.W img.H coverage t p with
  | none => blackPixel
  | some c =>
      if 0 ≤ c.1 ∧ c.1 < (img.W : ℤ) ∧ 0 ≤ c.2 ∧ c.2 < (img.H : ℤ) then
        img.data c.2.toNat c.1.toNat
      else blackPixel

/-- Variant of the loop body whose input read goes through the
bounds-checked `Img.read`, to state that the guarded read never fails. -/
noncomputable def outPixelChecked (img : Img) (coverage : ℝ) (p t : ℕ) : Option Pixel :=
  match srcCoord img.W img.H coverage t p with
  | none => some blackPixel
  | some c =>
      if 0 ≤ c.1 ∧ c.1 < (img.W : ℤ) ∧ 0 ≤ c.2 ∧ c.2 < (img.H : ℤ) then
        img.read c.2.toNat c.1.toNat
      else some blackPixel

/-- `img_cyl2sph(img_in, coverage)`: a square `W × W` image whose cell
`(p, t)` holds `outPixel`. `none` when `coverage = 0` (the computation of
`d` raises `ZeroDivisionError`). -/
noncomputable def img_cyl2sph (img : Img) (coverage : ℝ) : Option Img :=
  if coverage = 0 then none
  else some ⟨img.W, img.W, fun p t => outPixel img coverage p t⟩

/-- `file_cyl2sph`, restricted to its in-memory core (the `cv2.imread` /
`cv2.imwrite` file I/O is an external collaborator): the coverage fallback
`if coverage <= 0 or coverage > 1: coverage = 0.9` followed by
`img_cyl2sph`. -/
noncomputable def file_cyl2sph (img : Img) (coverage : ℝ) : Option Img :=
  img_cyl2sph img (if coverage ≤ 0 ∨ 1 < coverage then 0.9 else coverage)

/-- The 4×4 all-white test image of the spec's concrete scenario. -/
def imgWhite4 : Img := ⟨4, 4, fun _ _ => (255, 255, 255)⟩

/-- A 1×5 image whose pixel at column `x` is `(x, y, 0)`, used to
distinguish source columns. -/
def imgRow5 : Img := ⟨1, 5, fun y x => (x, y, 0)⟩

/-! ## Helper lemmas -/

/-- The loop's linear interpolation simplifies to `t/W · π − π/2`. -/
lemma thetaAt_eq (W t : ℕ) : thetaAt W t = (t : ℝ) / (W : ℝ) * Real.pi - Real.pi / 2 := by
  simp only [thetaAt, theta_min, theta_max]
  ring

/-- Rows and columns use the same interpolation formula. -/
lemma phiAt_eq_thetaAt (W p : ℕ) : phiAt W p = thetaAt W p := rfl

/-- Truncation of a natural number is itself. -/
lemma truncZ_natCast (n : ℕ) : truncZ (n : ℝ) = (n : ℤ) := by
  unfold truncZ
  rw [if_pos (by positivity)]
  exact Int.floor_natCast n

/-- Truncation agrees with the floor on nonnegative reals. -/
lemma truncZ_of_nonneg {r : ℝ} (h : 0 ≤ r) : truncZ r = ⌊r⌋ := by
  unfold truncZ
  exact if_pos h

/-- Natural halving is the floor of the real half. -/
lemma natDiv_two_eq_floor (n : ℕ) : ((n / 2 : ℕ) : ℤ) = ⌊(n : ℝ) / 2⌋ := by
  symm
  rw [Int.floor_eq_iff]
  constructor
  · rw [le_div_iff₀ (by norm_num : (0:ℝ) < 2)]
    push_cast
    exact_mod_cast Nat.div_mul_le_self n 2
  · rw [div_lt_iff₀ (by norm_num : (0:ℝ) < 2)]
    push_cast
    exact_mod_cast (by omega : n < (n / 2 + 1) * 2)

/-- At the midpoint column of an even width, the angle is exactly zero. -/
lemma thetaAt_half {W : ℕ} (hW : W % 2 = 0) (hW1 : 1 ≤ W) : thetaAt W (W / 2) = 0 := by
  rw [thetaAt_eq]
  have hW0 : (W : ℝ) ≠ 0 := Nat.cast_ne_zero.mpr (by omega)
  have hhalf : ((W / 2 : ℕ) : ℝ) = (W : ℝ) / 2 := by
    rw [eq_div_iff (by norm_num : (2:ℝ) ≠ 0)]
    exact_mod_cast (by omega : W / 2 * 2 = W)
  rw [hhalf]
  field_simp
  ring

/-- At column zero the angle is exactly `−π/2`, the lower endpoint. -/
lemma thetaAt_zero (W : ℕ) : thetaAt W 0 = -(Real.pi / 2) := by
  rw [thetaAt_eq]
  norm_num

/-- An angle strictly inside `(−π/2, π/2)` has nonzero cosine. -/
lemma cos_ne_zero_of_mem {x : ℝ} (h1 : -(Real.pi / 2) < x) (h2 : x < Real.pi / 2) :
    Real.cos x ≠ 0 :=
  (Real.cos_pos_of_mem_Ioo ⟨h1, h2⟩).ne'

/-! ## Claim theorems -/

/-- C2. Round-trip inverse law: for `d > 0` and angles strictly inside
`(−π/2, π/2)`, `cyl2sph` applied to `sph2cyl(theta, phi, d)` with the same
`d` returns exactly `(theta, phi)` (exact real arithmetic). -/
theorem sph2cyl_cyl2sph_round_trip (d theta phi : ℝ) (hd : 0 < d)
    (ht1 : -(Real.pi / 2) < theta) (ht2 : theta < Real.pi / 2)
    (hp1 : -(Real.pi / 2) < phi) (hp2 : phi < Real.pi / 2) :
    (sph2cyl theta phi d).bind (fun c => cyl2sph c.1 c.2 d) = some (theta, phi) := by
  have hcphi : Real.cos phi ≠ 0 := cos_ne_zero_of_mem hp1 hp2
  have hcth : Real.cos theta ≠ 0 := cos_ne_zero_of_mem ht1 ht2
  have hd' : d ≠ 0 := hd.ne'
  unfold sph2cyl
  rw [if_neg hcphi]
  show cyl2sph (d * theta) (d * Real.tan phi * Real.cos theta) d = some (theta, phi)
  unfold cyl2sph
  have e1 : d * theta / d = theta := by field_simp
  rw [e1, if_neg hd', if_neg hcth]
  have e2 : d * Real.tan phi * Real.cos theta / Real.cos theta / d = Real.tan phi := by
    field_simp
  rw [e2, Real.arctan_tan hp1 hp2]

/-- Witness for C2 at `d = 1`, `theta = phi = 0`. -/
theorem sph2cyl_cyl2sph_round_trip_witness :
    (0:ℝ) < 1 ∧ -(Real.pi / 2) < 0 ∧ (0:ℝ) < Real.pi / 2 ∧
      (sph2cyl 0 0 1).bind (fun c => cyl2sph c.1 c.2 1) = some (0, 0) := by
  have hpi : (0:ℝ) < Real.pi / 2 := by positivity
  exact ⟨one_pos, by linarith, hpi,
    sph2cyl_cyl2sph_round_trip 1 0 0 one_pos (by linarith) hpi (by linarith) hpi⟩

/-- C6. `cyl2sph` computes exactly the spec formulas under its
precondition: for `d > 0`, when `cos (x/d) ≠ 0` it returns
`(x/d, atan (y / cos (x/d) / d))`, and when `cos (x/d) = 0` the unguarded
division fails. -/
theorem cyl2sph_formula (x y d : ℝ) (hd : 0 < d) :
    (Real.cos (x / d) ≠ 0 →
      cyl2sph x y d = some (x / d, Real.arctan (y / Real.cos (x / d) / d))) ∧
    (Real.cos (x / d) = 0 → cyl2sph x y d = none) := by
  unfold cyl2sph
  rw [if_neg hd.ne']
  constructor
  · intro h
    rw [if_neg h]
  · intro h
    rw [if_pos h]

/-- Witness for C6 at `x = 0`, `y = 0`, `d = 1`. -/
theorem cyl2sph_formula_witness :
    (0:ℝ) < 1 ∧
      ((Real.cos ((0:ℝ) / 1) ≠ 0 →
        cyl2sph 0 0 1 = some ((0:ℝ) / 1, Real.arctan ((0:ℝ) / Real.cos ((0:ℝ) / 1) / 1))) ∧
      (Real.cos ((0:ℝ) / 1) = 0 → cyl2sph 0 0 1 = none)) :=
  ⟨one_pos, cyl2sph_formula 0 0 1 one_pos⟩

/-- C9 (amended). Angle-range invariant for the remap loop: for every
visited cell (`t < W`, `p < W`) the angles lie in the half-open interval
`[−π/2, π/2)`; they are strictly greater than `−π/2` exactly when the
index is at least 1 (at index 0 the angle equals `−π/2`). -/
theorem angle_range (W t p : ℕ) (ht : t < W) (hp : p < W) :
    (theta_min ≤ thetaAt W t ∧ thetaAt W t < theta_max ∧
      (1 ≤ t → theta_min < thetaAt W t)) ∧
    (phi_min ≤ phiAt W p ∧ phiAt W p < phi_max ∧
      (1 ≤ p → phi_min < phiAt W p)) := by
  have hπ : (0:ℝ) < Real.pi := Real.pi_pos
  have main : ∀ i : ℕ, i < W →
      theta_min ≤ thetaAt W i ∧ thetaAt W i < theta_max ∧
        (1 ≤ i → theta_min < thetaAt W i) := by
    intro i hi
    have hW0 : (0:ℝ) < (W : ℝ) := by
      have : 0 < W := by omega
      exact_mod_cast this
    have hr0 : (0:ℝ) ≤ (i : ℝ) / (W : ℝ) := by positivity
    have hr1 : (i : ℝ) / (W : ℝ) < 1 := by
      rw [div_lt_one hW0]
      exact_mod_cast hi
    have hub : (i : ℝ) / (W : ℝ) * Real.pi < Real.pi := by
      nlinarith
    have hlb : 0 ≤ (i : ℝ) / (W : ℝ) * Real.pi := by positivity
    rw [thetaAt_eq]
    unfold theta_min theta_max
    refine ⟨by linarith, by linarith, ?_⟩
    intro h1
    have hi0 : (0:ℝ) < (i : ℝ) := by
      have : 0 < i := h1
      exact_mod_cast this
    have : (0:ℝ) < (i : ℝ) / (W : ℝ) * Real.pi := by positivity
    linarith
  exact ⟨main t ht, by rw [phiAt_eq_thetaAt]; unfold phi_min phi_max; unfold theta_min theta_max at main; exact main p hp⟩

/-- Witness for C9 at `W = 2`, `t = p = 1`. -/
theorem angle_range_witness :
    1 < 2 ∧
      ((theta_min ≤ thetaAt 2 1 ∧ thetaAt 2 1 < theta_max ∧
        (1 ≤ 1 → theta_min < thetaAt 2 1)) ∧
      (phi_min ≤ phiAt 2 1 ∧ phiAt 2 1 < phi_max ∧
        (1 ≤ 1 → phi_min < phiAt 2 1))) :=
  ⟨by norm_num, angle_range 2 1 1 (by norm_num) (by norm_num)⟩

/-- Counterexample for C9 as stated: at column `t = 0` (for `W = 4`) the
angle equals `−π/2` exactly, so it does not lie strictly inside the open
interval `(−π/2, π/2)`. -/
theorem angle_range_cex :
    thetaAt 4 0 = theta_min ∧
      ¬(theta_min < thetaAt 4 0 ∧ thetaAt 4 0 < theta_max) := by
  have h : thetaAt 4 0 = theta_min := by
    rw [thetaAt_eq]
    unfold theta_min theta_max
    norm_num
  exact ⟨h, fun hc => lt_irrefl _ (h ▸ hc.1)⟩

/-- C4. Output shape: for any image and coverage in `(0, 1]`, the remap
succeeds and returns a square image with `W` rows and `W` columns (pixels
are 3-channel by the `Pixel` type). -/
theorem output_shape (img : Img) (coverage : ℝ) (h1 : 0 < coverage)
    (h2 : coverage ≤ 1) :
    ∃ out : Img, img_cyl2sph img coverage = some out ∧
      out.H = img.W ∧ out.W = img.W := by
  refine ⟨⟨img.W, img.W, fun p t => outPixel img coverage p t⟩, ?_, rfl, rfl⟩
  unfold img_cyl2sph
  rw [if_neg h1.ne']

/-- Witness for C4 at the 4×4 white image with coverage 1. -/
theorem output_shape_witness :
    (0:ℝ) < 1 ∧ (1:ℝ) ≤ 1 ∧
      ∃ out : Img, img_cyl2sph imgWhite4 1 = some out ∧
        out.H = imgWhite4.W ∧ out.W = imgWhite4.W :=
  ⟨one_pos, le_refl 1, output_shape imgWhite4 1 one_pos (le_refl 1)⟩

/-- C5. Centers come from truncating integer division: the source
coordinate of each cell adds `x_center = ⌊W/2⌋` and `y_center = ⌊H/2⌋`
(floor of half the dimension) to the converted coordinates before the
integer cast, and for odd `W` the center is the floor, not the exact
half. -/
theorem centers_floor (W H : ℕ) (coverage : ℝ) (t p : ℕ)
    (hphi : Real.cos (phiAt W p) ≠ 0) :
    srcCoord W H coverage t p =
      some (truncZ (diam W coverage * thetaAt W t + (x_center W : ℝ)),
            truncZ (diam W coverage * Real.tan (phiAt W p) * Real.cos (thetaAt W t)
              + (y_center H : ℝ))) ∧
    (x_center W : ℤ) = ⌊(W : ℝ) / 2⌋ ∧
    (y_center H : ℤ) = ⌊(H : ℝ) / 2⌋ ∧
    (W % 2 = 1 → ((x_center W : ℕ) : ℝ) ≠ (W : ℝ) / 2) := by
  refine ⟨?_, natDiv_two_eq_floor W, natDiv_two_eq_floor H, ?_⟩
  · unfold srcCoord sph2cyl
    rw [if_neg hphi]
  · intro hodd heq
    have h2 : ((x_center W : ℕ) : ℝ) * 2 = (W : ℝ) := by
      rw [heq]
      ring
    have h3 : (x_center W : ℕ) * 2 = W := by exact_mod_cast h2
    unfold x_center at h3
    omega

/-- Witness for C5 at `W = H = 4`, coverage 1, cell `t = p = 2`
(where `phi = 0`, so `cos phi = 1 ≠ 0`). -/
theorem centers_floor_witness :
    Real.cos (phiAt 4 2) ≠ 0 ∧
      (srcCoord 4 4 1 2 2 =
        some (truncZ (diam 4 1 * thetaAt 4 2 + (x_center 4 : ℝ)),
              truncZ (diam 4 1 * Real.tan (phiAt 4 2) * Real.cos (thetaAt 4 2)
                + (y_center 4 : ℝ))) ∧
      (x_center 4 : ℤ) = ⌊(4 : ℝ) / 2⌋ ∧
      (y_center 4 : ℤ) = ⌊(4 : ℝ) / 2⌋ ∧
      (4 % 2 = 1 → ((x_center 4 : ℕ) : ℝ) ≠ (4 : ℝ) / 2)) := by
  have hphi : Real.cos (phiAt 4 2) ≠ 0 := by
    rw [phiAt_eq_thetaAt, show thetaAt 4 2 = 0 from by rw [thetaAt_eq]; push_cast; ring,
      Real.cos_zero]
    norm_num
  exact ⟨hphi, centers_floor 4 4 1 2 2 hphi⟩

/-- Unfolding `outPixel` when the source coordinate is undefined. -/
lemma outPixel_none (img : Img) (coverage : ℝ) (p t : ℕ)
    (hc : srcCoord img.W img.H coverage t p = none) :
    outPixel img coverage p t = blackPixel := by
  unfold outPixel
  rw [hc]

/-- Unfolding `outPixel` when the source coordinate is defined. -/
lemma outPixel_some (img : Img) (coverage : ℝ) (p t : ℕ) {c : ℤ × ℤ}
    (hc : srcCoord img.W img.H coverage t p = some c) :
    outPixel img coverage p t =
      if 0 ≤ c.1 ∧ c.1 < (img.W : ℤ) ∧ 0 ≤ c.2 ∧ c.2 < (img.H : ℤ) then
        img.data c.2.toNat c.1.toNat
      else blackPixel := by
  unfold outPixel
  rw [hc]

/-- Unfolding `outPixelChecked` when the source coordinate is defined. -/
lemma outPixelChecked_some (img : Img) (coverage : ℝ) (p t : ℕ) {c : ℤ × ℤ}
    (hc : srcCoord img.W img.H coverage t p = some c) :
    outPixelChecked img coverage p t =
      if 0 ≤ c.1 ∧ c.1 < (img.W : ℤ) ∧ 0 ≤ c.2 ∧ c.2 < (img.H : ℤ) then
        img.read c.2.toNat c.1.toNat
      else some blackPixel := by
  unfold outPixelChecked
  rw [hc]

/-- Counterexample for C1 as stated: `img_cyl2sph` itself contains no
coverage fallback — at coverage 0 the computation of `d` divides by zero
and the call fails, so it is not identical to coverage 0.9. -/
theorem coverage_fallback_cex :
    img_cyl2sph imgWhite4 0 = none ∧
      img_cyl2sph imgWhite4 0 ≠ img_cyl2sph imgWhite4 0.9 := by
  have h0 : img_cyl2sph imgWhite4 0 = none := by
    unfold img_cyl2sph
    rw [if_pos rfl]
  refine ⟨h0, ?_⟩
  rw [h0]
  unfold img_cyl2sph
  rw [if_neg (by norm_num : (0.9:ℝ) ≠ 0)]
  simp

/-- C1 (amended). The coverage fallback lives in the file driver
`file_cyl2sph`, not inside the remap itself: the driver with coverage 0,
−1 or 1.5 processes the image identically to coverage 0.9. -/
theorem coverage_fallback_in_driver (img : Img) :
    file_cyl2sph img 0 = file_cyl2sph img 0.9 ∧
    file_cyl2sph img (-1) = file_cyl2sph img 0.9 ∧
    file_cyl2sph img 1.5 = file_cyl2sph img 0.9 := by
  unfold file_cyl2sph
  have e0 : (if (0:ℝ) ≤ 0 ∨ 1 < (0:ℝ) then (0.9:ℝ) else 0) = 0.9 :=
    if_pos (Or.inl le_rfl)
  have e1 : (if (-1:ℝ) ≤ 0 ∨ 1 < (-1:ℝ) then (0.9:ℝ) else -1) = 0.9 :=
    if_pos (Or.inl (by norm_num))
  have e2 : (if (1.5:ℝ) ≤ 0 ∨ 1 < (1.5:ℝ) then (0.9:ℝ) else 1.5) = 0.9 :=
    if_pos (Or.inr (by norm_num))
  have e3 : (if (0.9:ℝ) ≤ 0 ∨ 1 < (0.9:ℝ) then (0.9:ℝ) else 0.9) = 0.9 :=
    if_neg (by norm_num)
  rw [e0, e1, e2, e3]
  exact ⟨rfl, rfl, rfl⟩

/-- C10. Guarded input access: the loop body reads the input image only
inside the branch where both source indices are in bounds, so a
bounds-checked read never fails: the checked loop body always returns
`some` of the unchecked result. -/
theorem guarded_read (img : Img) (coverage : ℝ) (p t : ℕ) :
    outPixelChecked img coverage p t = some (outPixel img coverage p t) := by
  cases hsrc : srcCoord img.W img.H coverage t p with
  | none =>
      rw [outPixel_none img coverage p t hsrc]
      unfold outPixelChecked
      rw [hsrc]
  | some c =>
      rw [outPixel_some img coverage p t hsrc, outPixelChecked_some img coverage p t hsrc]
      by_cases hb : 0 ≤ c.1 ∧ c.1 < (img.W : ℤ) ∧ 0 ≤ c.2 ∧ c.2 < (img.H : ℤ)
      · rw [if_pos hb, if_pos hb]
        unfold Img.read
        rw [if_pos ⟨(Int.toNat_lt hb.2.2.1).mpr hb.2.2.2, (Int.toNat_lt hb.1).mpr hb.2.1⟩]
      · rw [if_neg hb, if_neg hb]

/-- C3. Copy-or-black postcondition: for a well-formed cell of the output
grid, if the computed source coordinate is in bounds the output pixel is a
copy of the input pixel there, otherwise (including the undefined
singularity case) it is exactly black; hence every output pixel is either
a copy of one input pixel or black. -/
theorem copy_or_black (img : Img) (coverage : ℝ) (p t : ℕ)
    (h1 : 0 < coverage) (h2 : coverage ≤ 1) (hp : p < img.W) (ht : t < img.W) :
    (∀ c : ℤ × ℤ, srcCoord img.W img.H coverage t p = some c →
      ((0 ≤ c.1 ∧ c.1 < (img.W : ℤ) ∧ 0 ≤ c.2 ∧ c.2 < (img.H : ℤ)) →
        outPixel img coverage p t = img.data c.2.toNat c.1.toNat) ∧
      (¬(0 ≤ c.1 ∧ c.1 < (img.W : ℤ) ∧ 0 ≤ c.2 ∧ c.2 < (img.H : ℤ)) →
        outPixel img coverage p t = blackPixel)) ∧
    (outPixel img coverage p t = blackPixel ∨
      ∃ y x : ℕ, y < img.H ∧ x < img.W ∧
        outPixel img coverage p t = img.data y x) := by
  constructor
  · intro c hc
    constructor
    · intro hb
      rw [outPixel_some img coverage p t hc, if_pos hb]
    · intro hb
      rw [outPixel_some img coverage p t hc, if_neg hb]
  · cases hsrc : srcCoord img.W img.H coverage t p with
    | none => exact Or.inl (outPixel_none img coverage p t hsrc)
    | some c =>
        by_cases hb : 0 ≤ c.1 ∧ c.1 < (img.W : ℤ) ∧ 0 ≤ c.2 ∧ c.2 < (img.H : ℤ)
        · refine Or.inr ⟨c.2.toNat, c.1.toNat,
            (Int.toNat_lt hb.2.2.1).mpr hb.2.2.2,
            (Int.toNat_lt hb.1).mpr hb.2.1, ?_⟩
          rw [outPixel_some img coverage p t hsrc, if_pos hb]
        · rw [outPixel_some img coverage p t hsrc, if_neg hb]
          exact Or.inl rfl

/-- Witness for C3 at the 4×4 white image, coverage 1, cell `p = t = 2`. -/
theorem copy_or_black_witness :
    (0:ℝ) < 1 ∧ (1:ℝ) ≤ 1 ∧ 2 < imgWhite4.W ∧
      ((∀ c : ℤ × ℤ, srcCoord imgWhite4.W imgWhite4.H 1 2 2 = some c →
        ((0 ≤ c.1 ∧ c.1 < (imgWhite4.W : ℤ) ∧ 0 ≤ c.2 ∧ c.2 < (imgWhite4.H : ℤ)) →
          outPixel imgWhite4 1 2 2 = imgWhite4.data c.2.toNat c.1.toNat) ∧
        (¬(0 ≤ c.1 ∧ c.1 < (imgWhite4.W : ℤ) ∧ 0 ≤ c.2 ∧ c.2 < (imgWhite4.H : ℤ)) →
          outPixel imgWhite4 1 2 2 = blackPixel)) ∧
      (outPixel imgWhite4 1 2 2 = blackPixel ∨
        ∃ y x : ℕ, y < imgWhite4.H ∧ x < imgWhite4.W ∧
          outPixel imgWhite4 1 2 2 = imgWhite4.data y x)) :=
  ⟨one_pos, le_refl 1, by norm_num [imgWhite4],
    copy_or_black imgWhite4 1 2 2 one_pos (le_refl 1)
      (by norm_num [imgWhite4]) (by norm_num [imgWhite4])⟩

/-- The source coordinate is undefined when `cos phi = 0` (tangent pole). -/
lemma srcCoord_none (W H : ℕ) (coverage : ℝ) (t p : ℕ)
    (h : Real.cos (phiAt W p) = 0) : srcCoord W H coverage t p = none := by
  unfold srcCoord sph2cyl
  rw [if_pos h]

/-- The source coordinate away from the pole, in closed form. -/
lemma srcCoord_some_eq (W H : ℕ) (coverage : ℝ) (t p : ℕ)
    (hphi : Real.cos (phiAt W p) ≠ 0) :
    srcCoord W H coverage t p =
      some (truncZ (diam W coverage * thetaAt W t + (x_center W : ℝ)),
            truncZ (diam W coverage * Real.tan (phiAt W p) * Real.cos (thetaAt W t)
              + (y_center H : ℝ))) := by
  unfold srcCoord sph2cyl
  rw [if_neg hphi]

/-- C7 (amended). Center mapping for even width: the output cell at
`p = t = W/2` copies the input pixel at the derived centers
`(y_center, x_center)`. (For odd `W` the midpoint angle is not zero and
the property fails.) -/
theorem center_maps_to_center (img : Img) (coverage : ℝ) (h1 : 0 < coverage)
    (h2 : coverage ≤ 1) (hW : img.W % 2 = 0) (hW1 : 1 ≤ img.W) (hH1 : 1 ≤ img.H) :
    outPixel img coverage (x_center img.W) (x_center img.W) =
      img.data (y_center img.H) (x_center img.W) := by
  show outPixel img coverage (img.W / 2) (img.W / 2) =
    img.data (y_center img.H) (x_center img.W)
  have hth : thetaAt img.W (img.W / 2) = 0 := thetaAt_half hW hW1
  have hph : phiAt img.W (img.W / 2) = 0 := by rw [phiAt_eq_thetaAt]; exact hth
  have hcos : Real.cos (phiAt img.W (img.W / 2)) ≠ 0 := by
    rw [hph, Real.cos_zero]; norm_num
  have hsrc := srcCoord_some_eq img.W img.H coverage (img.W / 2) (img.W / 2) hcos
  rw [hth, hph, Real.tan_zero] at hsrc
  have e1 : diam img.W coverage * (0:ℝ) + (x_center img.W : ℝ) =
      ((x_center img.W : ℕ) : ℝ) := by ring
  have e2 : diam img.W coverage * (0:ℝ) * Real.cos 0 + (y_center img.H : ℝ) =
      ((y_center img.H : ℕ) : ℝ) := by ring
  rw [e1, e2, truncZ_natCast, truncZ_natCast] at hsrc
  have hxlt : x_center img.W < img.W := Nat.div_lt_self (by omega) (by omega)
  have hylt : y_center img.H < img.H := Nat.div_lt_self (by omega) (by omega)
  rw [outPixel_some img coverage (img.W / 2) (img.W / 2) hsrc]
  dsimp only
  rw [if_pos ⟨by positivity, by exact_mod_cast hxlt, by positivity,
    by exact_mod_cast hylt⟩]
  simp only [Int.toNat_natCast]

/-- Witness for C7 at the 4×4 white image, coverage 1. -/
theorem center_maps_to_center_witness :
    (0:ℝ) < 1 ∧ (1:ℝ) ≤ 1 ∧ imgWhite4.W % 2 = 0 ∧ 1 ≤ imgWhite4.W ∧
      1 ≤ imgWhite4.H ∧
      outPixel imgWhite4 1 (x_center imgWhite4.W) (x_center imgWhite4.W) =
        imgWhite4.data (y_center imgWhite4.H) (x_center imgWhite4.W) :=
  ⟨one_pos, le_rfl, rfl, by norm_num [imgWhite4], by norm_num [imgWhite4],
    center_maps_to_center imgWhite4 1 one_pos le_rfl rfl
      (by norm_num [imgWhite4]) (by norm_num [imgWhite4])⟩

/-- Counterexample for C7 as stated: for the 1×5 image (odd width 5) with
coverage 1, the output cell at `p = t = x_center = 2` does not copy the
input pixel at the centers — the converted x lands at column 1, not 2. -/
theorem center_maps_to_center_cex :
    outPixel imgRow5 1 (x_center imgRow5.W) (x_center imgRow5.W) ≠
      imgRow5.data (y_center imgRow5.H) (x_center imgRow5.W) := by
  show outPixel imgRow5 1 2 2 ≠ imgRow5.data 0 2
  have hπ : (0:ℝ) < Real.pi := Real.pi_pos
  have hphi1 : -(Real.pi / 2) < phiAt 5 2 := by
    rw [phiAt_eq_thetaAt, thetaAt_eq]
    push_cast
    nlinarith
  have hphi2 : phiAt 5 2 < Real.pi / 2 := by
    rw [phiAt_eq_thetaAt, thetaAt_eq]
    push_cast
    nlinarith
  have hcos : Real.cos (phiAt 5 2) ≠ 0 := cos_ne_zero_of_mem hphi1 hphi2
  have hsrc := srcCoord_some_eq 5 1 1 2 2 hcos
  have hx : diam 5 1 * thetaAt 5 2 + (x_center 5 : ℝ) = 3 / 2 := by
    rw [thetaAt_eq]
    unfold diam x_center
    push_cast
    field_simp
    ring
  have hx' : truncZ (3 / 2 : ℝ) = 1 := by
    rw [truncZ_of_nonneg (by norm_num)]
    rw [Int.floor_eq_iff]
    norm_num
  rw [hx, hx'] at hsrc
  rw [outPixel_some imgRow5 1 2 2 hsrc]
  by_cases hb : (0:ℤ) ≤ 1 ∧ (1:ℤ) < (imgRow5.W : ℤ) ∧
      0 ≤ truncZ (diam 5 1 * Real.tan (phiAt 5 2) * Real.cos (thetaAt 5 2)
        + (y_center 1 : ℝ)) ∧
      truncZ (diam 5 1 * Real.tan (phiAt 5 2) * Real.cos (thetaAt 5 2)
        + (y_center 1 : ℝ)) < (imgRow5.H : ℤ)
  · rw [if_pos hb]
    simp [imgRow5, Prod.ext_iff]
  · rw [if_neg hb]
    simp [imgRow5, blackPixel, Prod.ext_iff]


/-- A real strictly between −1 and 1 truncates to zero. -/
lemma truncZ_eq_zero {r : ℝ} (h1 : -1 < r) (h2 : r < 1) : truncZ r = 0 := by
  unfold truncZ
  split_ifs with h
  · rw [Int.floor_eq_iff]
    constructor
    · exact_mod_cast h
    · push_cast
      linarith
  · rw [Int.ceil_eq_iff]
    constructor
    · push_cast
      linarith
    · push_cast
      linarith

/-- C8. The spec's concrete scenario diverges from the code at the corner
cell: at `t = p = 0` the float program's angles are not `−π/2` exactly but
a float neighbor `a` of it, and for every real `a` within `10⁻⁹` of
`−π/2` with `cos a ≠ 0` (true of every float, since `π/2` is irrational)
the loop's corner computation — `sph2cyl a a d`, the center shift, the
`int` cast, and the bounds-checked read on the 4×4 white image with
coverage 1 — produces the in-bounds source `(0, 0)` and copies the white
pixel `img_in[0, 0]`: the corner is white, not black as claimed. -/
theorem corner_float_behavior (a : ℝ)
    (h1 : |a + Real.pi / 2| ≤ 1 / 10 ^ 9) (h2 : Real.cos a ≠ 0) :
    ∃ c : ℝ × ℝ, sph2cyl a a (diam 4 1) = some c ∧
      truncZ (c.1 + (x_center 4 : ℝ)) = 0 ∧
      truncZ (c.2 + (y_center 4 : ℝ)) = 0 ∧
      imgWhite4.read 0 0 = some (255, 255, 255) := by
  have hπ : (3:ℝ) < Real.pi := Real.pi_gt_three
  have hπ' : Real.pi < 3.15 := Real.pi_lt_d2
  have hπ0 : (0:ℝ) < Real.pi := by linarith
  have hd : diam 4 1 = 4 / Real.pi := by
    unfold diam
    norm_num
  have hxc : ((x_center 4 : ℕ) : ℝ) = 2 := by norm_num [x_center]
  have hyc : ((y_center 4 : ℕ) : ℝ) = 2 := by norm_num [y_center]
  refine ⟨(diam 4 1 * a, diam 4 1 * Real.tan a * Real.cos a), ?_, ?_, ?_, rfl⟩
  · unfold sph2cyl
    rw [if_neg h2]
  · show truncZ (diam 4 1 * a + ((x_center 4 : ℕ) : ℝ)) = 0
    rw [hd, hxc]
    have heq : 4 / Real.pi * a + 2 = 4 / Real.pi * (a + Real.pi / 2) := by
      field_simp
      ring
    have habs : |4 / Real.pi * (a + Real.pi / 2)| ≤ 4 / Real.pi * (1 / 10 ^ 9) := by
      rw [abs_mul, abs_of_pos (by positivity : (0:ℝ) < 4 / Real.pi)]
      exact mul_le_mul_of_nonneg_left h1 (by positivity)
    have hsmall : 4 / Real.pi * (1 / 10 ^ 9) < 1 := by
      rw [div_mul_eq_mul_div, div_lt_one hπ0]
      nlinarith
    rw [heq]
    have hb := abs_lt.mp (lt_of_le_of_lt habs hsmall)
    exact truncZ_eq_zero hb.1 hb.2
  · show truncZ (diam 4 1 * Real.tan a * Real.cos a + ((y_center 4 : ℕ) : ℝ)) = 0
    rw [hyc, mul_assoc, Real.tan_mul_cos h2, hd]
    have hsin : Real.sin a = -Real.cos (a + Real.pi / 2) := by
      conv_lhs => rw [show a = -(Real.pi / 2 - (a + Real.pi / 2)) from by ring]
      rw [Real.sin_neg, Real.sin_pi_div_two_sub]
    have hsq : (a + Real.pi / 2) ^ 2 ≤ (1 / 10 ^ 9 : ℝ) ^ 2 := by
      have hb := abs_le.mp h1
      nlinarith [hb.1, hb.2]
    have hcos_ge : (0.9 : ℝ) ≤ Real.cos (a + Real.pi / 2) := by
      have := Real.one_sub_sq_div_two_le_cos (x := a + Real.pi / 2)
      nlinarith
    have hs_ub : Real.sin a ≤ -(0.9 : ℝ) := by
      rw [hsin]
      linarith
    have hs_lb : (-1 : ℝ) ≤ Real.sin a := Real.neg_one_le_sin a
    have hub : 4 / Real.pi * Real.sin a + 2 < 1 := by
      have hm : 4 / Real.pi * Real.sin a ≤ 4 / Real.pi * (-(0.9:ℝ)) :=
        mul_le_mul_of_nonneg_left hs_ub (by positivity)
      have hneg : 4 / Real.pi * (-(0.9:ℝ)) < -1 := by
        rw [div_mul_eq_mul_div, div_lt_iff₀ hπ0]
        nlinarith
      linarith
    have hlb : (-1 : ℝ) < 4 / Real.pi * Real.sin a + 2 := by
      have hm : 4 / Real.pi * (-1 : ℝ) ≤ 4 / Real.pi * Real.sin a :=
        mul_le_mul_of_nonneg_left hs_lb (by positivity)
      have h43 : 4 / Real.pi < 4 / 3 := by
        rw [div_lt_div_iff₀ hπ0 (by norm_num : (0:ℝ) < 3)]
        nlinarith
      nlinarith
    exact truncZ_eq_zero hlb hub

/-- Witness for the corner evaluation at the concrete angle
`a = −π/2 + 10⁻¹⁰`. -/
theorem corner_float_behavior_witness :
    |(-(Real.pi / 2) + 1 / 10 ^ 10) + Real.pi / 2| ≤ 1 / 10 ^ 9 ∧
    Real.cos (-(Real.pi / 2) + 1 / 10 ^ 10) ≠ 0 ∧
    ∃ c : ℝ × ℝ,
      sph2cyl (-(Real.pi / 2) + 1 / 10 ^ 10) (-(Real.pi / 2) + 1 / 10 ^ 10)
          (diam 4 1) = some c ∧
        truncZ (c.1 + (x_center 4 : ℝ)) = 0 ∧
        truncZ (c.2 + (y_center 4 : ℝ)) = 0 ∧
        imgWhite4.read 0 0 = some (255, 255, 255) := by
  have h1 : |(-(Real.pi / 2) + 1 / 10 ^ 10) + Real.pi / 2| ≤ 1 / 10 ^ 9 := by
    rw [show (-(Real.pi / 2) + 1 / 10 ^ 10) + Real.pi / 2 = 1 / 10 ^ 10 from by ring,
      abs_of_pos (by norm_num)]
    norm_num
  have h2 : Real.cos (-(Real.pi / 2) + 1 / 10 ^ 10) ≠ 0 := by
    rw [show -(Real.pi / 2) + 1 / 10 ^ 10 = -(Real.pi / 2 - 1 / 10 ^ 10) from by ring,
      Real.cos_neg, Real.cos_pi_div_two_sub]
    exact (Real.sin_pos_of_pos_of_lt_pi (by norm_num)
      (lt_trans (by norm_num : (1:ℝ) / 10 ^ 10 < 3) Real.pi_gt_three)).ne'
  exact ⟨h1, h2, corner_float_behavior _ h1 h2⟩
